import Mathlib

/-!
Shallow embedding of the Xymbolic second-quantization engine
(src/attr.rs, src/index.rs, src/op.rs, src/expr.rs, src/result_expr.rs,
src/wick.rs).  Floating-point coefficients (f64) are modelled as exact
rationals; every other structure is carried over field by field.
-/

namespace Xym

/-- src/attr.rs: the vacuum reference state. -/
inductive Vacuum where
  | Physical
  | Fermi
  | MultiReference
deriving DecidableEq, Repr

/-- src/attr.rs: orbital space of an index. -/
inductive Space where
  | General
  | Occupied
  | Virtual
  | DoublyOccupied
deriving DecidableEq, Repr

/-- src/attr.rs: second-quantization operator actions. -/
inductive Action where
  | Create
  | Annihilate
deriving DecidableEq, Repr

/-- src/attr.rs: particle statistics. -/
inductive Statistics where
  | FermiDirac
  | BoseEinstein
  | Arbitrary
deriving DecidableEq, Repr

/-- src/attr.rs `Space::is_allowed`: which spaces a vacuum admits. -/
def Space.is_allowed (s : Space) (v : Vacuum) : Bool :=
  match v with
  | Vacuum.Physical => match s with | Space.General => true | _ => false
  | Vacuum.Fermi => !(match s with | Space.General => true | _ => false)
  | Vacuum.MultiReference => true

/-- src/index.rs: a (name, space, vacuum) triple. -/
structure Index where
  name : String
  space : Space
  vacuum : Vacuum
deriving DecidableEq, Repr

/-- src/index.rs `Index::new`: defaults to General space, Physical vacuum. -/
def Index.new (name : String) : Index :=
  { name := name, space := Space.General, vacuum := Vacuum.Physical }

def spaceLabel : Space → String
  | Space.General => "General"
  | Space.Occupied => "Occupied"
  | Space.Virtual => "Virtual"
  | Space.DoublyOccupied => "DoublyOccupied"

def vacuumLabel : Vacuum → String
  | Vacuum.Physical => "Physical"
  | Vacuum.Fermi => "Fermi"
  | Vacuum.MultiReference => "MultiReference"

/-- src/index.rs `Index::build`: validates space-vs-vacuum legality. -/
def Index.build (i : Index) : Except String Index :=
  if i.space.is_allowed i.vacuum then Except.ok i
  else Except.error
    ("Illegal Space " ++ spaceLabel i.space ++ " for Vacuum " ++ vacuumLabel i.vacuum)

/-- src/op.rs: an operator is an Index plus an action tag. -/
structure Op where
  index : Index
  action : Action
deriving DecidableEq, Repr

/-- src/op.rs `fcrex`: creation operator. -/
def fcrex (index : Index) : Op := { index := index, action := Action.Create }

/-- src/op.rs `fannx`: annihilation operator. -/
def fannx (index : Index) : Op := { index := index, action := Action.Annihilate }

/-- src/op.rs `can_contract`: op1 must be Annihilate and op2 Create. -/
def can_contract (op1 op2 : Op) : Bool :=
  (match op1.action with | Action.Annihilate => true | _ => false) &&
  (match op2.action with | Action.Create => true | _ => false)

/-- src/op.rs: a Kronecker delta between two Indices. -/
structure Delta where
  a : Index
  b : Index
deriving DecidableEq, Repr

/-- Lexicographic comparison of character lists by code point; since UTF-8
    preserves code-point order this is exactly Rust byte-wise `str` order. -/
def charListLt : List Char → List Char → Bool
  | [], [] => false
  | [], _ :: _ => true
  | _ :: _, [] => false
  | a :: as, b :: bs =>
      if a.toNat < b.toNat then true
      else if b.toNat < a.toNat then false
      else charListLt as bs

/-- Rust `String` strict order. -/
def nameLt (s t : String) : Bool := charListLt s.data t.data

/-- Rust `String` non-strict order. -/
def nameLe (s t : String) : Bool := decide (s = t) || nameLt s t

/-- src/op.rs `Delta::canonical`: the name pair sorted by name. -/
def Delta.canonical (d : Delta) : String × String :=
  if nameLt d.a.name d.b.name then (d.a.name, d.b.name) else (d.b.name, d.a.name)

/-- src/expr.rs: a term — coefficient, deltas, ordered operators, statistics. -/
structure Expr where
  coeff : ℚ
  deltas : List Delta
  ops : List Op
  statistic : Statistics
deriving DecidableEq, Repr

/-- src/expr.rs `Expr::new`. -/
def Expr.new : Expr :=
  { coeff := 1, deltas := [], ops := [], statistic := Statistics.FermiDirac }

/-- src/expr.rs `Expr::set_coeff`. -/
def Expr.set_coeff (e : Expr) (c : ℚ) : Expr := { e with coeff := c }

/-- Scan of `Expr::add_delta`: rewrite the first existing delta whose `a`
    equals the incoming delta's `b`, if any. -/
def updateFirstDelta : List Delta → Delta → Option (List Delta)
  | [], _ => none
  | d :: rest, dl =>
      if d.a = dl.b then some ({ d with a := dl.a } :: rest)
      else (updateFirstDelta rest dl).map (fun l => d :: l)

/-- src/expr.rs `Expr::add_delta`: transitive delta substitution. -/
def Expr.add_delta (e : Expr) (dl : Delta) : Expr :=
  if dl.a = dl.b then e
  else
    match updateFirstDelta e.deltas dl with
    | some ds => { e with deltas := ds }
    | none => { e with deltas := e.deltas ++ [dl] }

/-- Lexicographic order on canonical delta name pairs (Rust tuple `Ord`). -/
def pairLe (p q : String × String) : Bool :=
  nameLt p.1 q.1 || (decide (p.1 = q.1) && nameLe p.2 q.2)

def insertPair (x : String × String) : List (String × String) → List (String × String)
  | [] => [x]
  | y :: rest => if pairLe x y then x :: y :: rest else y :: insertPair x rest

/-- Model of `Vec::sort` on canonical delta pairs (total order, so any
    correct sort yields the Rust result). -/
def sortPairs (l : List (String × String)) : List (String × String) :=
  l.foldr insertPair []

/-- src/expr.rs `Expr::is_similar`: same statistics, same operator sequence,
    same canonical delta multiset. -/
def Expr.is_similar (e other : Expr) : Bool :=
  decide (e.statistic = other.statistic) &&
  decide (e.ops = other.ops) &&
  decide (e.deltas.length = other.deltas.length) &&
  decide (sortPairs (e.deltas.map Delta.canonical)
            = sortPairs (other.deltas.map Delta.canonical))

/-- Adjacent scan of src/expr.rs `is_normal_order` (`windows(2).all`). -/
def noAdjAC : List Op → Bool
  | a :: b :: rest => !(can_contract a b) && noAdjAC (b :: rest)
  | _ => true

/-- src/expr.rs `is_normal_order`. -/
def is_normal_order (e : Expr) : Bool := noAdjAC e.ops

/-- src/expr.rs `impl Mul<Expr> for Expr`; the `assert_eq!` on statistics is
    modelled as an error return. -/
def mulExpr (e rhs : Expr) : Except String Expr :=
  if e.statistic = rhs.statistic then
    Except.ok { e with coeff := e.coeff * rhs.coeff,
                       ops := e.ops ++ rhs.ops,
                       deltas := e.deltas ++ rhs.deltas }
  else Except.error "StatisticsMismatchError"

/-- src/result_expr.rs: an ordered sum of terms. -/
structure ResultExpr where
  terms : List Expr
deriving DecidableEq, Repr

/-- src/result_expr.rs `ResultExpr::new`. -/
def ResultExpr.new : ResultExpr := { terms := [] }

/-- src/result_expr.rs `ResultExpr::from_expr`. -/
def ResultExpr.from_expr (e : Expr) : ResultExpr := { terms := [e] }

/-- Merge/drop threshold 1e-15 of src/result_expr.rs, as an exact rational. -/
def eps15 : ℚ := mkRat 1 (10 ^ 15)

/-- Contract-branch pruning threshold 1e-12 of src/wick.rs. -/
def eps12 : ℚ := mkRat 1 (10 ^ 12)

/-- Scan of `push_and_merge`: add the coefficient into the first similar
    existing term, if any. -/
def mergeFirst : List Expr → Expr → Option (List Expr)
  | [], _ => none
  | t :: rest, term =>
      if t.is_similar term then some ({ t with coeff := t.coeff + term.coeff } :: rest)
      else (mergeFirst rest term).map (fun l => t :: l)

/-- src/result_expr.rs `ResultExpr::push_and_merge`. -/
def ResultExpr.push_and_merge (r : ResultExpr) (term : Expr) : ResultExpr :=
  if |term.coeff| < eps15 then r
  else
    match mergeFirst r.terms term with
    | some ts => { terms := ts }
    | none => { terms := r.terms ++ [term] }

/-- src/result_expr.rs `ResultExpr::simplify`. -/
def ResultExpr.simplify (r : ResultExpr) : ResultExpr :=
  { terms := r.terms.filter (fun t => decide (eps15 < |t.coeff|)) }

/-- src/result_expr.rs `impl Add<ResultExpr> for ResultExpr`. -/
def ResultExpr.addR (r s : ResultExpr) : ResultExpr :=
  s.terms.foldl ResultExpr.push_and_merge r

/-- src/result_expr.rs `FromIterator<Expr>` (`collect()`). -/
def collectRE (ts : List Expr) : ResultExpr :=
  ts.foldl ResultExpr.push_and_merge ResultExpr.new

/-- Number of Create operators in a list (src/wick.rs `num_create`). -/
def countC (l : List Op) : Nat :=
  (l.filter (fun o => decide (o.action = Action.Create))).length

/-- Number of Annihilate operators in a list. -/
def countA (l : List Op) : Nat :=
  (l.filter (fun o => decide (o.action = Action.Annihilate))).length

/-- Annihilate-before-Create inversions across all position pairs; the
    termination measure of the recursive expansion. -/
def invCount : List Op → Nat
  | [] => 0
  | o :: rest => (if o.action = Action.Annihilate then countC rest else 0) + invCount rest

theorem countC_append (l₁ l₂ : List Op) : countC (l₁ ++ l₂) = countC l₁ + countC l₂ := by
  simp [countC, List.filter_append]

theorem countC_cons (o : Op) (t : List Op) :
    countC (o :: t) = (if o.action = Action.Create then 1 else 0) + countC t := by
  by_cases h : o.action = Action.Create <;> simp [countC, List.filter_cons, h, Nat.add_comm]

theorem countA_cons (o : Op) (t : List Op) :
    countA (o :: t) = (if o.action = Action.Annihilate then 1 else 0) + countA t := by
  by_cases h : o.action = Action.Annihilate <;> simp [countA, List.filter_cons, h, Nat.add_comm]

theorem invCount_append (l₁ l₂ : List Op) :
    invCount (l₁ ++ l₂) = invCount l₁ + countA l₁ * countC l₂ + invCount l₂ := by
  induction l₁ with
  | nil => simp [invCount, countA]
  | cons o t ih =>
      by_cases h : o.action = Action.Annihilate <;>
        simp [invCount, h, ih, countA_cons, countC_append] <;> ring

theorem can_contract_actions (a b : Op) (h : can_contract a b = true) :
    a.action = Action.Annihilate ∧ b.action = Action.Create := by
  cases ha : a.action <;> cases hb : b.action <;> simp [can_contract, ha, hb] at h ⊢

theorem invCount_swap (pre post : List Op) (a b : Op)
    (ha : a.action = Action.Annihilate) (hb : b.action = Action.Create) :
    invCount (pre ++ b :: a :: post) + 1 = invCount (pre ++ a :: b :: post) := by
  have h3 : invCount (b :: a :: post) = countC post + invCount post := by
    simp [invCount, countC_cons, ha, hb]
  have h4 : invCount (a :: b :: post) = 1 + countC post + invCount post := by
    simp [invCount, countC_cons, ha, hb]
  have h5 : countC (b :: a :: post) = 1 + countC post := by
    simp [countC_cons, ha, hb]
  have h6 : countC (a :: b :: post) = 1 + countC post := by
    simp [countC_cons, ha, hb]
  rw [invCount_append pre (b :: a :: post), invCount_append pre (a :: b :: post),
    h3, h4, h5, h6]
  omega

theorem invCount_contract (pre post : List Op) (a b : Op)
    (ha : a.action = Action.Annihilate) (hb : b.action = Action.Create) :
    invCount (pre ++ post) < invCount (pre ++ a :: b :: post) := by
  have h4 : invCount (a :: b :: post) = 1 + countC post + invCount post := by
    simp [invCount, countC_cons, ha, hb]
  have h6 : countC (a :: b :: post) = 1 + countC post := by
    simp [countC_cons, ha, hb]
  rw [invCount_append pre post, invCount_append pre (a :: b :: post), h4, h6]
  have hm : countA pre * countC post ≤ countA pre * (1 + countC post) :=
    Nat.mul_le_mul_left _ (by omega)
  omega

/-- The left-to-right scan of src/wick.rs `wick_expand_pv` for the first
    adjacent contractable pair, returning the surrounding context. -/
def splitFirst : List Op → Option (List Op × Op × Op × List Op)
  | a :: b :: rest =>
      if can_contract a b then some ([], a, b, rest)
      else (splitFirst (b :: rest)).map (fun x => (a :: x.1, x.2.1, x.2.2.1, x.2.2.2))
  | _ => none

theorem splitFirst_spec : ∀ (l pre : List Op) (a b : Op) (post : List Op),
    splitFirst l = some (pre, a, b, post) →
    l = pre ++ a :: b :: post ∧ can_contract a b = true ∧ noAdjAC (pre ++ [a]) = true := by
  intro l
  induction l with
  | nil => intro pre a b post h; simp [splitFirst] at h
  | cons x xs ih =>
      intro pre a b post h
      match xs with
      | [] => simp [splitFirst] at h
      | y :: rest =>
          rw [splitFirst] at h
          by_cases hc : can_contract x y = true
          · simp [hc] at h
            obtain ⟨h1, h2, h3, h4⟩ := h
            subst h1; subst h2; subst h3; subst h4
            exact ⟨rfl, hc, by simp [noAdjAC]⟩
          · rw [if_neg hc] at h
            obtain ⟨⟨pre0, a0, b0, post0⟩, hsp, heq⟩ := Option.map_eq_some'.mp h
            simp only [Prod.mk.injEq] at heq
            obtain ⟨he1, he2, he3, he4⟩ := heq
            subst he1; subst he2; subst he3; subst he4
            obtain ⟨hl, hcc, hpre⟩ := ih pre0 a0 b0 post0 hsp
            refine ⟨by simp [hl], hcc, ?_⟩
            cases pre0 with
            | nil =>
                simp at hl
                obtain ⟨hy, _⟩ := hl
                simp [noAdjAC, hy] at hc ⊢
                simpa [hy] using hc
            | cons w ws =>
                simp at hl
                obtain ⟨hy, _⟩ := hl
                subst hy
                simp [noAdjAC] at hpre ⊢
                exact ⟨by simpa using hc, hpre⟩

/-- Default operator used to model Rust slice indexing (never reached by
    in-range callers). -/
def defaultOp : Op := { index := Index.new "", action := Action.Create }

/-- The inner pairing loop of src/wick.rs `generate_pairings`: every later
    free position `j` (with the filtered remainder) that can contract. -/
def pairOptions (ops : List Op) (a : Op) (rest : List Nat) : List (Nat × List Nat) :=
  (List.range rest.length).filterMap (fun m =>
    if can_contract a (ops.getD (rest.getD m 0) defaultOp)
    then some (rest.getD m 0, rest.eraseIdx m) else none)

theorem pairOptions_length (ops : List Op) (a : Op) (rest : List Nat)
    (jr : Nat × List Nat) (h : jr ∈ pairOptions ops a rest) :
    jr.2.length ≤ rest.length := by
  simp only [pairOptions, List.mem_filterMap, List.mem_range] at h
  obtain ⟨m, hm, hf⟩ := h
  split at hf
  · cases hf
    rw [List.length_eraseIdx]
    split <;> omega
  · exact Option.noConfusion hf

/-- Fuel-indexed body of src/wick.rs `generate_pairings`; the fuel is a
    structural bound on the recursion depth (each recursive call drops two
    free positions, so fuel `free.length` is never exhausted). -/
def gpAux (ops : List Op) : Nat → List Nat → List (List (Nat × Nat))
  | _, [] => [[]]
  | 0, _ :: _ => []
  | fuel + 1, i :: rest =>
      let a := ops.getD i defaultOp
      if a.action = Action.Create then []
      else
        (pairOptions ops a rest).flatMap (fun jr =>
          (gpAux ops fuel jr.2).map (fun sub => (i, jr.1) :: sub))

/-- src/wick.rs `generate_pairings`: all perfect matchings in which every
    pair is an Annihilate operator contracted with a later Create operator. -/
def generate_pairings (ops : List Op) (free : List Nat) : List (List (Nat × Nat)) :=
  gpAux ops free.length free

/-- The fuel bound is inert: any two fuels at least the list length give the
    same pairings, so `generate_pairings` computes the unbounded recursion
    of the source. -/
theorem gpAux_fuel_eq (ops : List Op) :
    ∀ (n fuel1 fuel2 : Nat) (free : List Nat), free.length ≤ n →
    free.length ≤ fuel1 → free.length ≤ fuel2 →
    gpAux ops fuel1 free = gpAux ops fuel2 free := by
  intro n
  induction n with
  | zero =>
      intro f1 f2 free h0 h1 h2
      match free with
      | [] => cases f1 <;> cases f2 <;> rfl
      | _ :: _ => simp at h0
  | succ n ih =>
      intro f1 f2 free h0 h1 h2
      match free with
      | [] => cases f1 <;> cases f2 <;> rfl
      | i :: rest =>
          match f1, f2 with
          | fu1 + 1, fu2 + 1 =>
              simp only [gpAux]
              split
              · rfl
              · rw [List.flatMap_def, List.flatMap_def]
                refine congrArg List.flatten (List.map_congr_left fun jr hj => ?_)
                have hlen := pairOptions_length ops (ops.getD i defaultOp) rest jr hj
                simp only [List.length_cons] at h0 h1 h2
                refine congrArg _ (ih fu1 fu2 jr.2 (by omega) (by omega) (by omega))

/-- src/wick.rs `count_crossings` pair normalization. -/
def normalizePair (p : Nat × Nat) : Nat × Nat := if p.1 < p.2 then p else (p.2, p.1)

/-- The interlacing test of src/wick.rs `count_crossings`. -/
def crossedB (x y : Nat × Nat) : Bool :=
  (decide (x.1 < y.1) && decide (y.1 < x.2) && decide (x.2 < y.2)) ||
  (decide (y.1 < x.1) && decide (x.1 < y.2) && decide (y.2 < x.2))

/-- The double loop of `count_crossings`: each pair against every later pair. -/
def countCrossAux : List (Nat × Nat) → Nat
  | [] => 0
  | x :: rest => (rest.filter (fun y => crossedB x y)).length + countCrossAux rest

/-- src/wick.rs `count_crossings`. -/
def count_crossings (p : List (Nat × Nat)) : Nat := countCrossAux (p.map normalizePair)

/-- The term emitted for one pairing in src/wick.rs `wick_expand_fc_pv`
    (the closure inside the `map`). -/
def fcTerm (stats : Statistics) (e : Expr) (p : List (Nat × Nat)) : Expr :=
  let c := count_crossings p
  let sign : ℚ :=
    match stats with
    | Statistics.FermiDirac => if c % 2 ≠ 0 then -1 else 1
    | _ => 1
  let term0 := Expr.set_coeff Expr.new (sign * e.coeff)
  p.foldl (fun t ij =>
    Expr.add_delta t { a := (e.ops.getD ij.1 defaultOp).index,
                       b := (e.ops.getD ij.2 defaultOp).index }) term0

/-- src/wick.rs `wick_expand_fc_pv`: the full-contraction engine. -/
def wick_expand_fc_pv (stats : Statistics) (e : Expr) : ResultExpr :=
  if e.ops.length ≤ 1 ∨ is_normal_order e = true then ResultExpr.from_expr e
  else
    let num_create := countC e.ops
    let num_annihilate := e.ops.length - num_create
    if num_create ≠ num_annihilate then ResultExpr.new
    else collectRE ((generate_pairings e.ops (List.range e.ops.length)).map (fcTerm stats e))

/-- src/wick.rs `wick_expand_pv`: the general recursive expansion. -/
def wick_expand_pv (stats : Statistics) (e : Expr) : ResultExpr :=
  if e.ops.length ≤ 1 ∨ is_normal_order e = true then ResultExpr.from_expr e
  else
    match hs : splitFirst e.ops with
    | none => ResultExpr.from_expr e
    | some (pre, a, b, post) =>
        let swapped : Expr :=
          { e with ops := pre ++ b :: a :: post,
                   coeff := if stats = Statistics.FermiDirac then -e.coeff else e.coeff }
        let res1 := ResultExpr.addR ResultExpr.new (wick_expand_pv stats swapped)
        let contracted0 := Expr.add_delta e { a := a.index, b := b.index }
        if eps12 < |contracted0.coeff| then
          ResultExpr.addR res1 (wick_expand_pv stats { contracted0 with ops := pre ++ post })
        else res1
termination_by invCount e.ops
decreasing_by
  · obtain ⟨hl, hcc, -⟩ := splitFirst_spec e.ops pre a b post hs
    obtain ⟨ha, hb⟩ := can_contract_actions a b hcc
    rw [hl]
    have := invCount_swap pre post a b ha hb
    omega
  · obtain ⟨hl, hcc, -⟩ := splitFirst_spec e.ops pre a b post hs
    obtain ⟨ha, hb⟩ := can_contract_actions a b hcc
    rw [hl]
    exact invCount_contract pre post a b ha hb

/-- src/wick.rs `WickTheorem` state. -/
structure WickTheorem where
  expr_ : Expr
  full_contractions_ : Bool
  wick_result_ : ResultExpr
  vacuum_ : Vacuum
  statistics_ : Statistics
deriving DecidableEq, Repr

/-- src/wick.rs `WickTheorem::new`: vacuum inferred from the first operator,
    defaulting to Physical. -/
def WickTheorem.new (expr : Expr) : WickTheorem :=
  { expr_ := expr,
    full_contractions_ := false,
    wick_result_ := ResultExpr.new,
    vacuum_ := ((expr.ops.head?).map (fun o => o.index.vacuum)).getD Vacuum.Physical,
    statistics_ := expr.statistic }

/-- src/wick.rs `WickTheorem::full_contractions` mode setter. -/
def WickTheorem.full_contractions (wt : WickTheorem) (b : Bool) : WickTheorem :=
  { wt with full_contractions_ := b }

/-- src/wick.rs `WickTheorem::compute`. -/
def WickTheorem.compute (wt : WickTheorem) : WickTheorem :=
  match wt.vacuum_, wt.full_contractions_ with
  | Vacuum.Physical, true =>
      { wt with wick_result_ := wick_expand_fc_pv wt.statistics_ wt.expr_ }
  | Vacuum.Physical, false =>
      { wt with wick_result_ := wick_expand_pv wt.statistics_ wt.expr_ }
  | _, _ => wt

/-- Each operator is Create or Annihilate, so the two counts fill the length. -/
theorem countC_add_countA (l : List Op) : countC l + countA l = l.length := by
  induction l with
  | nil => rfl
  | cons o t ih =>
      cases h : o.action <;> simp [countC_cons, countA_cons, h] <;> omega

/-- The function add_delta only touches the delta list, never the coefficient. -/
theorem add_delta_coeff (e : Expr) (dl : Delta) : (Expr.add_delta e dl).coeff = e.coeff := by
  unfold Expr.add_delta
  split
  · rfl
  · split <;> rfl

/-- The function add_delta also leaves the operator list and statistics unchanged. -/
theorem add_delta_ops (e : Expr) (dl : Delta) :
    (Expr.add_delta e dl).ops = e.ops ∧ (Expr.add_delta e dl).statistic = e.statistic := by
  unfold Expr.add_delta
  split
  · exact ⟨rfl, rfl⟩
  · split <;> exact ⟨rfl, rfl⟩

/-- Modelled from the spec: the table of §3 as the claim words it — under
    the Physical vacuum only the General space; the Fermi vacuum forbids
    exactly General; MultiReference allows all. -/
def allowedTable (s : Space) (v : Vacuum) : Bool :=
  match v with
  | Vacuum.Physical => decide (s = Space.General)
  | Vacuum.Fermi => decide (s ≠ Space.General)
  | Vacuum.MultiReference => true

/-- Modelled from the spec: two pairs cross iff, after normalizing each to
    (min, max), they strictly interleave. -/
def specCrossed (x y : Nat × Nat) : Prop :=
  (min x.1 x.2 < min y.1 y.2 ∧ min y.1 y.2 < max x.1 x.2 ∧ max x.1 x.2 < max y.1 y.2) ∨
  (min y.1 y.2 < min x.1 x.2 ∧ min x.1 x.2 < max y.1 y.2 ∧ max y.1 y.2 < max x.1 x.2)

instance (x y : Nat × Nat) : Decidable (specCrossed x y) := by
  unfold specCrossed; infer_instance

/-- Modelled from the spec: number of crossing unordered pairs of pairs. -/
def specCrossCount : List (Nat × Nat) → Nat
  | [] => 0
  | x :: rest => (rest.filter (fun y => decide (specCrossed x y))).length + specCrossCount rest

/-- Modelled from the claim on termination: the number of adjacent
    Annihilate-then-Create pairs. -/
def adjInvCount : List Op → Nat
  | a :: b :: rest => (if can_contract a b then 1 else 0) + adjInvCount (b :: rest)
  | _ => 0

/-- The source's interlacing test on pre-normalized pairs agrees with the
    spec's min/max formulation. -/
theorem crossedB_normalize (x y : Nat × Nat) :
    crossedB (normalizePair x) (normalizePair y) = decide (specCrossed x y) := by
  rw [Bool.eq_iff_iff]
  rcases x with ⟨x1, x2⟩
  rcases y with ⟨y1, y2⟩
  simp only [crossedB, normalizePair, specCrossed, decide_eq_true_eq, Bool.or_eq_true,
    Bool.and_eq_true, Nat.min_def, Nat.max_def]
  split_ifs <;> simp_all <;> omega

/-- The nested crossing loop equals the spec-side crossing count. -/
theorem count_crossings_eq_spec (p : List (Nat × Nat)) :
    count_crossings p = specCrossCount p := by
  unfold count_crossings
  induction p with
  | nil => rfl
  | cons x rest ih =>
      simp only [List.map_cons, countCrossAux, specCrossCount]
      rw [List.filter_map, List.length_map, ih]
      congr 2
      apply List.filter_congr
      intro y hy
      simpa using crossedB_normalize x y

theorem foldl_add_delta_coeff (e : Expr) (l : List (Nat × Nat)) :
    ∀ (t : Expr),
      (l.foldl (fun t ij =>
        Expr.add_delta t { a := (e.ops.getD ij.1 defaultOp).index,
                           b := (e.ops.getD ij.2 defaultOp).index }) t).coeff = t.coeff := by
  induction l with
  | nil => intro t; rfl
  | cons ij rest ih => intro t; rw [List.foldl_cons, ih, add_delta_coeff]

/-- The emitted coefficient of one pairing, before aggregation. -/
theorem fcTerm_coeff (stats : Statistics) (e : Expr) (p : List (Nat × Nat)) :
    (fcTerm stats e p).coeff =
      (match stats with
       | Statistics.FermiDirac => if count_crossings p % 2 ≠ 0 then (-1 : ℚ) else 1
       | _ => 1) * e.coeff := by
  unfold fcTerm
  rw [foldl_add_delta_coeff]
  rfl

/-- Decider for success of an `Except` result. -/
def isOkE {α β : Type} : Except α β → Bool
  | Except.ok _ => true
  | Except.error _ => false

def idxP1 : Index := Index.new "p_1"

def idxP2 : Index := Index.new "p_2"

def idxP3 : Index := Index.new "p_3"

def idxP4 : Index := Index.new "p_4"

/-- The four-operator product a(p3) a(p4) a†(p1) a†(p2) with coefficient 1
    (the term of the src/wick.rs tests). -/
def fourOpTerm : Expr :=
  { coeff := 1, deltas := [],
    ops := [fannx idxP3, fannx idxP4, fcrex idxP1, fcrex idxP2],
    statistic := Statistics.FermiDirac }

/-- C1: full contraction under Fermi-Dirac statistics of
    a(p3) a(p4) a†(p1) a†(p2) with coefficient 1 yields exactly two
    operator-free terms: -1 with deltas δ(p3,p1), δ(p4,p2), and +1 with
    deltas δ(p3,p2), δ(p4,p1). -/
theorem fc_full_contraction_four_ops :
    wick_expand_fc_pv Statistics.FermiDirac fourOpTerm =
      { terms := [
        { coeff := -1, deltas := [{ a := idxP3, b := idxP1 }, { a := idxP4, b := idxP2 }],
          ops := [], statistic := Statistics.FermiDirac },
        { coeff := 1, deltas := [{ a := idxP3, b := idxP2 }, { a := idxP4, b := idxP1 }],
          ops := [], statistic := Statistics.FermiDirac }] } := by
  with_unfolding_all decide

/-- C2: for every pairing emitted by the full-contraction engine, the crossing
    count agrees with the strict-interleaving rule on (min,max)-normalized
    pairs, and the emitted coefficient is (-1)^crossings times the original
    coefficient under Fermi-Dirac statistics and +1 times it under any other
    statistics. -/
theorem fc_sign_rule (stats : Statistics) (e : Expr) (p : List (Nat × Nat))
    (hp : p ∈ generate_pairings e.ops (List.range e.ops.length)) :
    count_crossings p = specCrossCount p ∧
    (fcTerm stats e p).coeff =
      (if stats = Statistics.FermiDirac then (-1 : ℚ) ^ specCrossCount p else 1) * e.coeff := by
  refine ⟨count_crossings_eq_spec p, ?_⟩
  rw [fcTerm_coeff]
  cases stats with
  | FermiDirac =>
      rw [if_pos rfl]
      show (if count_crossings p % 2 ≠ 0 then (-1 : ℚ) else 1) * e.coeff = _
      rw [count_crossings_eq_spec]
      congr 1
      by_cases h : specCrossCount p % 2 = 0
      · rw [if_neg (not_not_intro h)]
        exact (Even.neg_one_pow (Nat.even_iff.mpr h)).symm
      · rw [if_pos h]
        exact (Odd.neg_one_pow (Nat.odd_iff.mpr (by omega))).symm
  | BoseEinstein => simp
  | Arbitrary => simp

theorem fc_sign_rule_witness :
    [(0, 2), (1, 3)] ∈ generate_pairings fourOpTerm.ops (List.range fourOpTerm.ops.length) ∧
    (count_crossings [(0, 2), (1, 3)] = specCrossCount [(0, 2), (1, 3)] ∧
     (fcTerm Statistics.FermiDirac fourOpTerm [(0, 2), (1, 3)]).coeff =
       (if Statistics.FermiDirac = Statistics.FermiDirac then
         (-1 : ℚ) ^ specCrossCount [(0, 2), (1, 3)] else 1) * fourOpTerm.coeff) :=
  ⟨by decide, fc_sign_rule Statistics.FermiDirac fourOpTerm [(0, 2), (1, 3)] (by decide)⟩

/-- C5: a term with at least two operators, not in normal order, whose
    Create and Annihilate counts differ, fully contracts to the empty sum
    (exact algebraic zero); the engine returns normally, it never errors. -/
theorem fc_mismatch_empty (stats : Statistics) (e : Expr)
    (hlen : 2 ≤ e.ops.length) (hnorm : is_normal_order e = false)
    (hcnt : countC e.ops ≠ countA e.ops) :
    (wick_expand_fc_pv stats e).terms = [] := by
  have hng : ¬(e.ops.length ≤ 1 ∨ is_normal_order e = true) := by
    rintro (h | h)
    · omega
    · rw [hnorm] at h
      exact Bool.false_ne_true h
  have hca := countC_add_countA e.ops
  unfold wick_expand_fc_pv
  rw [if_neg hng]
  simp only []
  rw [if_pos (show countC e.ops ≠ e.ops.length - countC e.ops by omega)]
  rfl

/-- A term with one Annihilate and two Create operators: mismatched counts. -/
def mismatchTerm : Expr :=
  { coeff := 1, deltas := [],
    ops := [fannx idxP1, fcrex idxP2, fcrex idxP3],
    statistic := Statistics.FermiDirac }

theorem fc_mismatch_empty_witness :
    2 ≤ mismatchTerm.ops.length ∧ is_normal_order mismatchTerm = false ∧
    countC mismatchTerm.ops ≠ countA mismatchTerm.ops ∧
    (wick_expand_fc_pv Statistics.FermiDirac mismatchTerm).terms = [] :=
  ⟨by decide, by decide, by decide,
   fc_mismatch_empty Statistics.FermiDirac mismatchTerm (by decide) (by decide) (by decide)⟩

/-- C6: a term with at most one operator, or one already in normal order, is
    returned unchanged as the sole element of the full-contraction result —
    including non-empty normal-ordered strings. -/
theorem fc_short_circuit (stats : Statistics) (e : Expr)
    (h : e.ops.length ≤ 1 ∨ is_normal_order e = true) :
    (wick_expand_fc_pv stats e).terms = [e] := by
  unfold wick_expand_fc_pv
  rw [if_pos h]
  rfl

/-- A non-empty, already normal-ordered string a†(p1) a(p2). -/
def normalTerm : Expr :=
  { coeff := 1, deltas := [],
    ops := [fcrex idxP1, fannx idxP2],
    statistic := Statistics.FermiDirac }

theorem fc_short_circuit_witness :
    is_normal_order normalTerm = true ∧ normalTerm.ops.length = 2 ∧
    (wick_expand_fc_pv Statistics.FermiDirac normalTerm).terms = [normalTerm] :=
  ⟨by decide, by decide,
   fc_short_circuit Statistics.FermiDirac normalTerm (Or.inr (by decide))⟩

/-- C7: Index construction succeeds, returning the index itself, exactly on
    the (space, vacuum) pairs of the §3 table — under Physical only General,
    under Fermi everything except General, under MultiReference everything —
    and fails with an error value on every disallowed pair. -/
theorem index_build_iff_allowed (i : Index) :
    i.build = (if allowedTable i.space i.vacuum then Except.ok i
               else Except.error ("Illegal Space " ++ spaceLabel i.space ++
                 " for Vacuum " ++ vacuumLabel i.vacuum)) := by
  rcases i with ⟨n, sp, v⟩
  cases sp <;> cases v <;> rfl

/-- C8: composing two Terms multiplies coefficients and concatenates the
    operator and delta sequences when the statistics agree, and fails with a
    statistics-mismatch error (never a usable result) when they differ. -/
theorem mulExpr_statistics (e1 e2 : Expr) :
    mulExpr e1 e2 =
      (if e1.statistic = e2.statistic then
        Except.ok { coeff := e1.coeff * e2.coeff, deltas := e1.deltas ++ e2.deltas,
                    ops := e1.ops ++ e2.ops, statistic := e1.statistic }
      else Except.error "StatisticsMismatchError") ∧
    (isOkE (mulExpr e1 e2) = true ↔ e1.statistic = e2.statistic) := by
  refine ⟨rfl, ?_⟩
  by_cases h : e1.statistic = e2.statistic <;> simp [mulExpr, h, isOkE]

/-- C9: when the inferred vacuum (first operator's vacuum, or Physical for an
    empty term) is not Physical, compute() performs no computation: the stored
    input term is unchanged and the result stays the empty sum it was
    initialized to, in both full and general modes. -/
theorem compute_nonphysical_noop (e : Expr) (b : Bool)
    (h : (e.ops.head?.map (fun o => o.index.vacuum)).getD Vacuum.Physical ≠ Vacuum.Physical) :
    ((WickTheorem.new e).full_contractions b).compute.expr_ = e ∧
    ((WickTheorem.new e).full_contractions b).compute.wick_result_ = ResultExpr.new := by
  rcases hveq : (e.ops.head?.map (fun o => o.index.vacuum)).getD Vacuum.Physical with _ | _ | _
  · exact absurd hveq h
  · constructor <;>
      simp only [WickTheorem.compute, WickTheorem.new, WickTheorem.full_contractions, hveq]
  · constructor <;>
      simp only [WickTheorem.compute, WickTheorem.new, WickTheorem.full_contractions, hveq]

/-- An Occupied/Fermi index: legal, but its vacuum is not Physical. -/
def fermiIdx : Index := { name := "i", space := Space.Occupied, vacuum := Vacuum.Fermi }

def fermiTerm : Expr :=
  { coeff := 1, deltas := [], ops := [fannx fermiIdx], statistic := Statistics.FermiDirac }

theorem compute_nonphysical_noop_witness :
    ((fermiTerm.ops.head?.map (fun o => o.index.vacuum)).getD Vacuum.Physical
        ≠ Vacuum.Physical) ∧
    (((WickTheorem.new fermiTerm).full_contractions true).compute.expr_ = fermiTerm ∧
     ((WickTheorem.new fermiTerm).full_contractions true).compute.wick_result_
        = ResultExpr.new) :=
  ⟨by decide, compute_nonphysical_noop fermiTerm true (by decide)⟩

theorem mergeFirst_append (t : Expr) :
    ∀ (pre : List Expr), (∀ u ∈ pre, u.is_similar t = false) →
    ∀ (t0 : Expr) (post : List Expr), t0.is_similar t = true →
    mergeFirst (pre ++ t0 :: post) t =
      some (pre ++ { t0 with coeff := t0.coeff + t.coeff } :: post) := by
  intro pre
  induction pre with
  | nil =>
      intro _ t0 post hsim
      simp [mergeFirst, hsim]
  | cons u us ih =>
      intro hpre t0 post hsim
      have hu : u.is_similar t = false := hpre u (List.mem_cons_self u us)
      simp only [List.cons_append, mergeFirst, hu, Bool.false_eq_true, if_false,
        List.append_eq]
      rw [ih (fun v hv => hpre v (List.mem_cons_of_mem u hv)) t0 post hsim]
      rfl

/-- C10: push_and_merge applies its 1e-15 threshold only to the incoming
    term: an incoming term at or above threshold is summed into the first
    similar existing term, which stays in the sum no matter how small (even
    exactly zero) the summed coefficient is; sub-threshold terms disappear
    only through simplify, whose output only ever holds terms above the
    threshold. -/
theorem push_and_merge_threshold (pre post : List Expr) (t0 t : Expr)
    (hbig : ¬(|t.coeff| < eps15))
    (hpre : ∀ u ∈ pre, u.is_similar t = false)
    (hsim : t0.is_similar t = true) :
    ResultExpr.push_and_merge { terms := pre ++ t0 :: post } t =
      { terms := pre ++ { t0 with coeff := t0.coeff + t.coeff } :: post } ∧
    (∀ (r : ResultExpr) (u : Expr), u ∈ r.simplify.terms → eps15 < |u.coeff|) := by
  constructor
  · unfold ResultExpr.push_and_merge
    rw [if_neg hbig, mergeFirst_append t pre hpre t0 post hsim]
  · intro r u hu
    simp only [ResultExpr.simplify, List.mem_filter] at hu
    exact of_decide_eq_true hu.2

def negUnitTerm : Expr := { Expr.new with coeff := -1 }

theorem push_and_merge_threshold_witness :
    (¬(|negUnitTerm.coeff| < eps15)) ∧
    (∀ u ∈ ([] : List Expr), u.is_similar negUnitTerm = false) ∧
    Expr.new.is_similar negUnitTerm = true ∧
    (ResultExpr.push_and_merge { terms := [] ++ Expr.new :: [] } negUnitTerm =
       { terms := [] ++ { Expr.new with
           coeff := Expr.new.coeff + negUnitTerm.coeff } :: [] } ∧
     (∀ (r : ResultExpr) (u : Expr), u ∈ r.simplify.terms → eps15 < |u.coeff|)) :=
  ⟨by with_unfolding_all decide, by simp, by decide,
   push_and_merge_threshold [] [] Expr.new negUnitTerm
     (by with_unfolding_all decide) (by simp) (by decide)⟩

/-- C4 counterexample: for a(p1) a(p2) a†(p3) the first contractable pair
    sits at positions 1,2; exchanging them gives a(p1) a†(p3) a(p2), whose
    number of adjacent Annihilate-then-Create pairs is still 1 — the swap
    branch does not strictly reduce the adjacent-inversion count the claim
    names, though it keeps the length. -/
theorem swap_adjacent_inversions_cex :
    splitFirst [fannx idxP1, fannx idxP2, fcrex idxP3] =
      some ([fannx idxP1], fannx idxP2, fcrex idxP3, []) ∧
    adjInvCount [fannx idxP1, fcrex idxP3, fannx idxP2] = 1 ∧
    adjInvCount [fannx idxP1, fannx idxP2, fcrex idxP3] = 1 ∧
    [fannx idxP1, fcrex idxP3, fannx idxP2].length =
      [fannx idxP1, fannx idxP2, fcrex idxP3].length := by
  decide

/-- C4 (amended): at the first contractable pair, the swap branch keeps the
    operator count and strictly decreases (by exactly one) the total number
    of Annihilate-before-Create inversions over all position pairs, and the
    contract branch strictly decreases both the length and that inversion
    count; this measure is the well-founded measure of wick_expand_pv, so
    the recursion reaches normal-ordered or length-at-most-one leaves. -/
theorem wick_expand_measures (e : Expr) (pre post : List Op) (a b : Op)
    (hs : splitFirst e.ops = some (pre, a, b, post)) :
    (pre ++ b :: a :: post).length = e.ops.length ∧
    invCount (pre ++ b :: a :: post) + 1 = invCount e.ops ∧
    (pre ++ post).length + 2 = e.ops.length ∧
    invCount (pre ++ post) < invCount e.ops := by
  obtain ⟨hl, hcc, -⟩ := splitFirst_spec e.ops pre a b post hs
  obtain ⟨ha, hb⟩ := can_contract_actions a b hcc
  rw [hl]
  refine ⟨by simp, invCount_swap pre post a b ha hb, ?_ ,
    invCount_contract pre post a b ha hb⟩
  simp [List.length_append]
  omega

theorem wick_expand_measures_witness :
    splitFirst fourOpTerm.ops =
      some ([fannx idxP3], fannx idxP4, fcrex idxP1, [fcrex idxP2]) ∧
    (([fannx idxP3] ++ fcrex idxP1 :: fannx idxP4 :: [fcrex idxP2]).length
        = fourOpTerm.ops.length ∧
     invCount ([fannx idxP3] ++ fcrex idxP1 :: fannx idxP4 :: [fcrex idxP2]) + 1
        = invCount fourOpTerm.ops ∧
     ([fannx idxP3] ++ [fcrex idxP2]).length + 2 = fourOpTerm.ops.length ∧
     invCount ([fannx idxP3] ++ [fcrex idxP2]) < invCount fourOpTerm.ops) :=
  ⟨by decide,
   wick_expand_measures fourOpTerm [fannx idxP3] [fcrex idxP2]
     (fannx idxP4) (fcrex idxP1) (by decide)⟩

/-- C3: one recursive step of the general expansion acts only on the first
    adjacent contractable pair (everything before it is free of adjacent
    Annihilate-Create pairs), producing a swap branch with the two operators
    exchanged and the coefficient negated exactly under Fermi-Dirac
    statistics, and a contract branch with a delta between the two operators'
    indices and both operators removed, which is skipped entirely iff the
    coefficient's magnitude is at or below 1e-12. -/
theorem wick_expand_step (stats : Statistics) (e : Expr) (pre post : List Op) (a b : Op)
    (hlen : 2 ≤ e.ops.length) (hnorm : is_normal_order e = false)
    (hs : splitFirst e.ops = some (pre, a, b, post)) :
    e.ops = pre ++ a :: b :: post ∧
    can_contract a b = true ∧
    noAdjAC (pre ++ [a]) = true ∧
    (Expr.add_delta e { a := a.index, b := b.index }).coeff = e.coeff ∧
    wick_expand_pv stats e =
      (let swapped : Expr :=
        { e with ops := pre ++ b :: a :: post,
                 coeff := if stats = Statistics.FermiDirac then -e.coeff else e.coeff };
       let res1 := ResultExpr.addR ResultExpr.new (wick_expand_pv stats swapped);
       if eps12 < |e.coeff| then
         ResultExpr.addR res1 (wick_expand_pv stats
           { Expr.add_delta e { a := a.index, b := b.index } with ops := pre ++ post })
       else res1) := by
  obtain ⟨hl, hcc, hpre⟩ := splitFirst_spec e.ops pre a b post hs
  have hng : ¬(e.ops.length ≤ 1 ∨ is_normal_order e = true) := by
    rintro (h | h)
    · omega
    · rw [hnorm] at h
      exact Bool.false_ne_true h
  refine ⟨hl, hcc, hpre, add_delta_coeff e _, ?_⟩
  rw [wick_expand_pv]
  rw [if_neg hng]
  split
  · next heq =>
      rw [hs] at heq
      exact Option.noConfusion heq
  · next pre2 a2 b2 post2 heq =>
      rw [hs] at heq
      simp only [Option.some.injEq, Prod.mk.injEq] at heq
      obtain ⟨h1, h2, h3, h4⟩ := heq
      subst h1; subst h2; subst h3; subst h4
      dsimp only
      rw [add_delta_coeff]

theorem wick_expand_step_witness :
    2 ≤ fourOpTerm.ops.length ∧ is_normal_order fourOpTerm = false ∧
    splitFirst fourOpTerm.ops =
      some ([fannx idxP3], fannx idxP4, fcrex idxP1, [fcrex idxP2]) ∧
    (fourOpTerm.ops = [fannx idxP3] ++ fannx idxP4 :: fcrex idxP1 :: [fcrex idxP2] ∧
     can_contract (fannx idxP4) (fcrex idxP1) = true ∧
     noAdjAC ([fannx idxP3] ++ [fannx idxP4]) = true ∧
     (Expr.add_delta fourOpTerm
        { a := (fannx idxP4).index, b := (fcrex idxP1).index }).coeff
          = fourOpTerm.coeff ∧
     wick_expand_pv Statistics.FermiDirac fourOpTerm =
       (let swapped : Expr :=
         { fourOpTerm with
             ops := [fannx idxP3] ++ fcrex idxP1 :: fannx idxP4 :: [fcrex idxP2],
             coeff := if Statistics.FermiDirac = Statistics.FermiDirac then
               -fourOpTerm.coeff else fourOpTerm.coeff };
        let res1 := ResultExpr.addR ResultExpr.new
          (wick_expand_pv Statistics.FermiDirac swapped);
        if eps12 < |fourOpTerm.coeff| then
          ResultExpr.addR res1 (wick_expand_pv Statistics.FermiDirac
            { Expr.add_delta fourOpTerm
                { a := (fannx idxP4).index, b := (fcrex idxP1).index } with
                ops := [fannx idxP3] ++ [fcrex idxP2] })
        else res1)) :=
  ⟨by decide, by decide, by decide,
   wick_expand_step Statistics.FermiDirac fourOpTerm [fannx idxP3] [fcrex idxP2]
     (fannx idxP4) (fcrex idxP1) (by decide) (by decide) (by decide)⟩

end Xym
